import Mathlib

/-!
Shallow embedding of `src/strip.py`, a command-line utility that recursively
removes trailing newline bytes (`\n` = 10, `\r` = 13) from files.

File contents are modelled as `List Nat` (byte sequences).  A failed read of a
file is modelled by `Option`: `none` stands for a read that raises
`IOError`/`OSError`.  Paths are modelled by their string form together with
their `pathlib` suffix.
-/

namespace Strip

/-- Loop guard of the trim loop, line 34 of `strip.py`:
`content and content[-1:] in (LF, CR)` where LF is the byte 10 and CR the byte 13. -/
def trimGuard (content : List Nat) : Bool :=
  !content.isEmpty && (content.getLast? == some 10 || content.getLast? == some 13)

/-- One iteration of the loop body, lines 35-40 of `strip.py`:
`content[:-2]` when the content ends with the CRLF pair, otherwise
`content[:-1]` when it ends with LF or with CR.  The final identity branch is
unreachable when the guard holds. -/
def trimStep (content : List Nat) : List Nat :=
  if [13, 10].isSuffixOf content then content.dropLast.dropLast
  else if [10].isSuffixOf content then content.dropLast
  else if [13].isSuffixOf content then content.dropLast
  else content

theorem trimGuard_getLast {c : List Nat} (h : trimGuard c = true) :
    c ≠ [] ∧ (c.getLast? = some 10 ∨ c.getLast? = some 13) := by
  unfold trimGuard at h
  simp only [Bool.and_eq_true, Bool.or_eq_true, beq_iff_eq, Bool.not_eq_true'] at h
  exact ⟨by simpa using h.1, h.2⟩

theorem trimStep_length_lt {c : List Nat} (h : trimGuard c = true) :
    (trimStep c).length < c.length := by
  obtain ⟨hne, hlast⟩ := trimGuard_getLast h
  have hpos : 0 < c.length := List.length_pos.mpr hne
  unfold trimStep
  split
  · simp only [List.length_dropLast]; omega
  · split
    · simp only [List.length_dropLast]; omega
    · split
      · simp only [List.length_dropLast]; omega
      · exfalso
        rename_i h1 h2 h3
        rcases hlast with hl | hl
        · obtain ⟨ys, rfl⟩ := List.getLast?_eq_some_iff.mp hl
          exact h2 (by simp [List.isSuffixOf_iff_suffix])
        · obtain ⟨ys, rfl⟩ := List.getLast?_eq_some_iff.mp hl
          exact h3 (by simp [List.isSuffixOf_iff_suffix])

/-- The trim loop, lines 34-41 of `strip.py`: repeatedly remove a trailing
`\r\n` pair or a single trailing `\n`/`\r` byte while the last byte is `\n` or
`\r`. -/
def trimLoop (content : List Nat) : List Nat :=
  if h : trimGuard content then trimLoop (trimStep content) else content
termination_by content.length
decreasing_by exact trimStep_length_lt h

/-- The pure trim computation, lines 31-42 of `strip.py`:
`trim(b) = (newBytes, bytesRemoved)` where `bytesRemoved` is
`original_length - len(content)` after the loop. -/
def trim (content : List Nat) : List Nat × Nat :=
  (trimLoop content, content.length - (trimLoop content).length)

/-- The inlined dry-run copy of the trim loop, lines 140-146 of `strip.py`
(`temp_content` variable in `process_directory`).  Textually duplicated in the
source, hence embedded as its own definition. -/
def dryRunLoop (temp_content : List Nat) : List Nat :=
  if h : trimGuard temp_content then dryRunLoop (trimStep temp_content)
  else temp_content
termination_by temp_content.length
decreasing_by exact trimStep_length_lt h

theorem trimLoop_eq_self {c : List Nat} (h : trimGuard c = false) :
    trimLoop c = c := by
  unfold trimLoop
  simp [h]

theorem trimGuard_trimLoop (c : List Nat) : trimGuard (trimLoop c) = false := by
  by_cases h : trimGuard c = true
  · rw [trimLoop]
    simp only [h, dite_true]
    have := trimStep_length_lt h
    exact trimGuard_trimLoop (trimStep c)
  · simp only [Bool.not_eq_true] at h
    rw [trimLoop_eq_self h, h]
termination_by c.length
decreasing_by exact trimStep_length_lt h

theorem trimLoop_length_le (c : List Nat) : (trimLoop c).length ≤ c.length := by
  by_cases h : trimGuard c = true
  · rw [trimLoop]
    simp only [h, dite_true]
    have h1 := trimStep_length_lt h
    have h2 := trimLoop_length_le (trimStep c)
    omega
  · simp only [Bool.not_eq_true] at h
    rw [trimLoop_eq_self h]
termination_by c.length
decreasing_by exact trimStep_length_lt h

theorem dryRunLoop_eq_trimLoop (c : List Nat) : dryRunLoop c = trimLoop c := by
  by_cases h : trimGuard c = true
  · rw [trimLoop, dryRunLoop]
    simp only [h, dite_true]
    have := trimStep_length_lt h
    exact dryRunLoop_eq_trimLoop (trimStep c)
  · simp only [Bool.not_eq_true] at h
    rw [trimLoop_eq_self h, dryRunLoop]
    simp [h]
termination_by c.length
decreasing_by exact trimStep_length_lt h

/-- Fuel-indexed unfolding of the trim loop: `none` means the loop did not
finish within the given number of iterations.  Used to state termination of
the `while` loop of lines 34-41. -/
def trimLoopFuel : Nat → List Nat → Option (List Nat)
  | 0, c => if trimGuard c then none else some c
  | fuel + 1, c => if trimGuard c then trimLoopFuel fuel (trimStep c) else some c

theorem trimLoopFuel_complete {fuel : Nat} {c : List Nat} (h : c.length ≤ fuel) :
    trimLoopFuel fuel c = some (trimLoop c) := by
  induction fuel generalizing c with
  | zero =>
    have hc : c = [] := List.length_eq_zero.mp (Nat.le_zero.mp h)
    subst hc
    simp [trimLoopFuel, trimLoop, trimGuard]
  | succ fuel ih =>
    by_cases hg : trimGuard c = true
    · have hlt := trimStep_length_lt hg
      rw [trimLoopFuel]
      simp only [hg, if_true]
      rw [ih (by omega)]
      conv_rhs => rw [trimLoop]
      simp [hg]
    · simp only [Bool.not_eq_true] at hg
      rw [trimLoopFuel]
      simp [hg, trimLoop_eq_self hg]

/-- Result of `remove_trailing_newlines` (lines 13-54 of `strip.py`): the
returned pair `(was_modified, bytes_removed)`, together with the content
written back to the file (`none` when the file is not rewritten) and whether
an `IOError`/`OSError` was caught and reported to stderr (line 52-54). -/
structure TrimResult where
  was_modified : Bool
  bytes_removed : Nat
  written : Option (List Nat)
  io_error : Bool
deriving Repr, DecidableEq

/-- The function `remove_trailing_newlines` (lines 13-54 of `strip.py`).  The input is the
result of reading the file: `none` models a read that raises
`IOError`/`OSError` (caught at line 52, returning `(False, 0)`). -/
def remove_trailing_newlines : Option (List Nat) → TrimResult
  | none => ⟨false, 0, none, true⟩
  | some content =>
    if content.isEmpty then ⟨false, 0, none, false⟩
    else
      let original_length := content.length
      let trimmed := trimLoop content
      let bytes_removed := original_length - trimmed.length
      if bytes_removed > 0 then ⟨true, bytes_removed, some trimmed, false⟩
      else ⟨false, 0, none, false⟩

theorem trimStep_concat_cr (y : List Nat) : trimStep (y ++ [13]) = y := by
  have h1 : [13, 10].isSuffixOf (y ++ [13]) = false := by
    rw [Bool.eq_false_iff]
    intro hs
    rw [List.isSuffixOf_iff_suffix] at hs
    obtain ⟨t, ht⟩ := hs
    have h10 : (y ++ [13]).getLast? = some 10 := by
      rw [← ht, show t ++ [13, 10] = (t ++ [13]) ++ [10] by simp,
        List.getLast?_concat]
    rw [List.getLast?_concat] at h10
    simp at h10
  have h2 : [10].isSuffixOf (y ++ [13]) = false := by
    rw [Bool.eq_false_iff]
    intro hs
    rw [List.isSuffixOf_iff_suffix] at hs
    obtain ⟨t, ht⟩ := hs
    have h10 : (y ++ [13]).getLast? = some 10 := by
      rw [← ht, List.getLast?_concat]
    rw [List.getLast?_concat] at h10
    simp at h10
  have h3 : [13].isSuffixOf (y ++ [13]) = true := by
    rw [List.isSuffixOf_iff_suffix]
    exact ⟨y, rfl⟩
  unfold trimStep
  rw [h1, h2, h3]
  simp [List.dropLast_concat]

theorem trimLoop_append_replicate_cr {x : List Nat} (hx : trimGuard x = false) :
    ∀ k : Nat, trimLoop (x ++ List.replicate k 13) = x := by
  intro k
  induction k with
  | zero => simpa using trimLoop_eq_self hx
  | succ k ih =>
    have hsplit : x ++ List.replicate (k + 1) 13 = (x ++ List.replicate k 13) ++ [13] := by
      rw [List.replicate_succ', List.append_assoc]
    have hguard : trimGuard (x ++ List.replicate (k + 1) 13) = true := by
      unfold trimGuard
      rw [hsplit, List.getLast?_concat]
      simp
    rw [trimLoop]
    simp only [hguard, dite_true]
    rw [hsplit, trimStep_concat_cr, ih]

/-- Evaluation bridge: a run of the fuel-indexed loop on a concrete input
determines the value of `trimLoop`. -/
theorem trimLoop_eval {c v : List Nat} (h : trimLoopFuel c.length c = some v) :
    trimLoop c = v := by
  rw [trimLoopFuel_complete (le_refl c.length)] at h
  exact Option.some.inj h

theorem trimStep_removes_one_or_two {c : List Nat} (h : trimGuard c = true) :
    (trimStep c).length + 1 = c.length ∨ (trimStep c).length + 2 = c.length := by
  obtain ⟨hne, hlast⟩ := trimGuard_getLast h
  have hpos : 0 < c.length := List.length_pos.mpr hne
  unfold trimStep
  split
  · rename_i hs
    rw [List.isSuffixOf_iff_suffix] at hs
    have h2 : 2 ≤ c.length := hs.length_le
    right
    simp only [List.length_dropLast]
    omega
  · split
    · left; simp only [List.length_dropLast]; omega
    · split
      · left; simp only [List.length_dropLast]; omega
      · exfalso
        rename_i h1 h2 h3
        rcases hlast with hl | hl
        · obtain ⟨ys, rfl⟩ := List.getLast?_eq_some_iff.mp hl
          exact h2 (by simp [List.isSuffixOf_iff_suffix])
        · obtain ⟨ys, rfl⟩ := List.getLast?_eq_some_iff.mp hl
          exact h3 (by simp [List.isSuffixOf_iff_suffix])

/-- C1: for every byte sequence `b`, the trimmed output (the content
`remove_trailing_newlines` would write back) is either empty or its last
byte is neither `\n` (10) nor `\r` (13). -/
theorem trim_output_no_trailing_newline (b : List Nat) :
    ((trim b).1 = [] ∨
      ((trim b).1.getLast? ≠ some 10 ∧ (trim b).1.getLast? ≠ some 13)) ∧
    (∀ w, (remove_trailing_newlines (some b)).written = some w →
      (w = [] ∨ (w.getLast? ≠ some 10 ∧ w.getLast? ≠ some 13))) := by
  have hg := trimGuard_trimLoop b
  have main : trimLoop b = [] ∨
      ((trimLoop b).getLast? ≠ some 10 ∧ (trimLoop b).getLast? ≠ some 13) := by
    unfold trimGuard at hg
    rcases Bool.and_eq_false_iff.mp hg with h | h
    · left
      simpa [List.isEmpty_iff] using h
    · right
      rcases Bool.or_eq_false_iff.mp h with ⟨h10, h13⟩
      exact ⟨by simpa using h10, by simpa using h13⟩
  refine ⟨main, ?_⟩
  intro w hw
  have hwv : w = trimLoop b := by
    simp only [remove_trailing_newlines] at hw
    split at hw
    · simp at hw
    · split at hw
      · exact (Option.some.inj hw).symm
      · simp at hw
  rw [hwv]
  exact main

/-- C1 witness: on input `b"h\n"` the file is rewritten with `b"h"`, whose
last byte is neither `\n` nor `\r`. -/
theorem trim_output_no_trailing_newline_witness :
    (remove_trailing_newlines (some [104, 10])).written = some [104] ∧
    (([104] : List Nat) = [] ∨
      (([104] : List Nat).getLast? ≠ some 10 ∧ ([104] : List Nat).getLast? ≠ some 13)) := by
  have hL : trimLoop [104, 10] = [104] := trimLoop_eval (by decide)
  have hw : (remove_trailing_newlines (some [104, 10])).written = some [104] := by
    simp [remove_trailing_newlines, hL]
  exact ⟨hw, (trim_output_no_trailing_newline [104, 10]).2 [104] hw⟩

/-- C2: for every byte sequence `b`, the length of the input equals the
length of the trimmed output plus the reported `bytes_removed`; the removed
count never exceeds the input length (so it is a genuine non-negative
difference). -/
theorem trim_length_conservation (b : List Nat) :
    b.length = (trim b).1.length + (trim b).2 ∧ (trim b).1.length ≤ b.length := by
  have h := trimLoop_length_le b
  unfold trim
  exact ⟨by simp; omega, by simpa using h⟩

/-- C4: trimming is idempotent; the trimmed output is a fixed point of the
trim computation, which removes `0` further bytes from it. -/
theorem trim_idempotent (b : List Nat) :
    trim (trim b).1 = ((trim b).1, 0) := by
  have h := trimGuard_trimLoop b
  unfold trim
  simp [trimLoop_eq_self h]

/-- C8: a run of `k ≥ 1` trailing `\r` bytes with no following `\n` is fully
stripped: for `x` not ending in `\n`/`\r`, trimming `x` followed by `k` CR
bytes yields `(x, k)`. -/
theorem trailing_cr_run_stripped (x : List Nat) (k : Nat)
    (h10 : x.getLast? ≠ some 10) (h13 : x.getLast? ≠ some 13) (hk : 1 ≤ k) :
    trim (x ++ List.replicate k 13) = (x, k) := by
  have hx : trimGuard x = false := by
    unfold trimGuard
    simp [beq_eq_false_iff_ne, h10, h13]
  have hL := trimLoop_append_replicate_cr hx k
  unfold trim
  rw [hL]
  simp

/-- C8 witness: `trim(b"x\r\r") = (b"x", 2)`. -/
theorem trailing_cr_run_stripped_witness :
    (([120] : List Nat).getLast? ≠ some 10) ∧ (([120] : List Nat).getLast? ≠ some 13) ∧
    (1 : Nat) ≤ 2 ∧ trim ([120] ++ List.replicate 2 13) = ([120], 2) :=
  ⟨by decide, by decide, by decide,
    trailing_cr_run_stripped [120] 2 (by decide) (by decide) (by decide)⟩

/-- C9: the trim loop terminates on every finite byte sequence: it finishes
within `length` iterations (the fuel-indexed unfolding agrees with the value
of the loop), and each iteration taken under the loop guard removes exactly one or
two bytes, so the length strictly decreases. -/
theorem trim_loop_terminates (c : List Nat) :
    trimLoopFuel c.length c = some (trimLoop c) ∧
    (trimGuard c = true →
      (trimStep c).length + 1 = c.length ∨ (trimStep c).length + 2 = c.length) :=
  ⟨trimLoopFuel_complete (le_refl c.length), fun h => trimStep_removes_one_or_two h⟩

/-- C9 witness: on `b"h\r\n"` the guard holds and one iteration removes
exactly two bytes. -/
theorem trim_loop_terminates_witness :
    trimGuard [104, 13, 10] = true ∧
    ((trimStep [104, 13, 10]).length + 1 = ([104, 13, 10] : List Nat).length ∨
      (trimStep [104, 13, 10]).length + 2 = ([104, 13, 10] : List Nat).length) :=
  ⟨by decide, (trim_loop_terminates [104, 13, 10]).2 (by decide)⟩

/-- The fixed deny-list of binary extensions, lines 81-87 of `strip.py`. -/
def binary_extensions : List String :=
  [".exe", ".dll", ".so", ".dylib", ".bin", ".obj", ".o",
   ".jpg", ".jpeg", ".png", ".gif", ".bmp", ".ico", ".svg",
   ".mp3", ".mp4", ".avi", ".mov", ".wav", ".flac",
   ".zip", ".tar", ".gz", ".rar", ".7z",
   ".pdf", ".doc", ".docx", ".xls", ".xlsx", ".ppt", ".pptx"]

/-- Python truthiness of an optional collection argument (`None` and the
empty collection are falsy). -/
def truthy : Option (List String) → Bool
  | none => false
  | some l => !l.isEmpty

/-- The Python substring test `pat in s` on strings. -/
def strContains (s pat : String) : Bool := decide (pat.data <:+: s.data)

/-- The Python method `str.lower()`, character-wise (the extensions compared in
`strip.py` are ASCII). -/
def py_lower (s : String) : String := ⟨s.data.map Char.toLower⟩

/-- The Python method `str.startswith(pat)`. -/
def py_startswith (s pat : String) : Bool := pat.data.isPrefixOf s.data

/-- The filter `should_process_file` (lines 57-92 of `strip.py`).  The path argument is
modelled by its string form `file_str` (`str(file_path)`) and its `pathlib`
suffix `path_suffix` (`file_path.suffix`). -/
def should_process_file (file_str path_suffix : String)
    (extensions exclude_patterns : Option (List String)) : Bool :=
  if truthy extensions && !((extensions.getD []).contains (py_lower path_suffix)) then
    false
  else if truthy exclude_patterns &&
      ((exclude_patterns.getD []).any (fun pat => strContains file_str pat)) then
    false
  else if binary_extensions.contains (py_lower path_suffix) then
    false
  else
    true

/-- A file in the modelled filesystem: its name, its `pathlib` suffix, and
the result of reading it (`none` models a read raising `IOError`/`OSError`). -/
structure PyFile where
  name : String
  suffix : String
  content : Option (List Nat)
deriving Repr, DecidableEq

/-- A directory tree: name, subdirectories, files. -/
inductive FSTree where
  | dir : String → List FSTree → List PyFile → FSTree
deriving Repr

def FSTree.dirName : FSTree → String
  | .dir n _ _ => n

/-- Model of `os.walk` as used at lines 114-116 of `strip.py`: top-down traversal that
yields `(root, files)` pairs, where subdirectories whose name starts with `.`
are pruned in place (`dirs[:] = [d for d in dirs if not d.startswith(DOT)]` with DOT the one-dot
string)
before descent.  Roots are modelled as lists of path components, starting
from the string form of the directory argument. -/
def walkFS (root : List String) : FSTree → List (List String × List PyFile)
  | .dir _ subdirs files =>
    (root, files) ::
      ((subdirs.filter (fun d => !py_startswith (FSTree.dirName d) ".")).attach.flatMap
        (fun d => walkFS (root ++ [FSTree.dirName d.1]) d.1))
termination_by t => sizeOf t
decreasing_by
  rename_i subdirs files
  have hmem : d.1 ∈ subdirs := List.mem_of_mem_filter d.2
  have := List.sizeOf_lt_of_mem hmem
  simp only [FSTree.dir.sizeOf_spec]
  omega

theorem FSTree.strongInduction (P : FSTree → Prop)
    (h : ∀ n subdirs files, (∀ d ∈ subdirs, P d) → P (.dir n subdirs files)) :
    ∀ t, P t
  | .dir n subdirs files =>
    h n subdirs files (fun d hd => FSTree.strongInduction P h d)
termination_by t => sizeOf t
decreasing_by
  have := List.sizeOf_lt_of_mem hd
  simp only [FSTree.dir.sizeOf_spec]
  omega

/-- Model of `str(Path(root) / file)` for a root given as path components: the
components joined by `/`. -/
def joinComponents : List String → String
  | [] => ""
  | [a] => a
  | a :: rest => a ++ "/" ++ joinComponents rest

/-- The running counters of `process_directory` (lines 105-107) together
with the paths reported to stderr on per-file I/O errors. -/
structure RunState where
  total_files : Nat
  modified_files : Nat
  total_bytes_removed : Nat
  errors : List String
deriving Repr, DecidableEq

/-- The body of the per-file loop of `process_directory`, lines 118-163 of
`strip.py`: skip hidden files, apply the filter, count the file, then either
run the inlined dry-run trim computation (lines 130-155) or call
`remove_trailing_newlines` (lines 156-163). -/
def processFile (extensions exclude_patterns : Option (List String)) (dry_run : Bool)
    (root : List String) (s : RunState) (f : PyFile) : RunState :=
  let file_path := joinComponents (root ++ [f.name])
  if py_startswith f.name "." then s
  else if !should_process_file file_path f.suffix extensions exclude_patterns then s
  else
    let s1 := { s with total_files := s.total_files + 1 }
    if dry_run then
      match f.content with
      | none => { s1 with errors := s1.errors ++ [file_path] }
      | some content =>
        if !content.isEmpty then
          let original_length := content.length
          let temp_content := dryRunLoop content
          let bytes_would_remove := original_length - temp_content.length
          if bytes_would_remove > 0 then
            { s1 with modified_files := s1.modified_files + 1,
                      total_bytes_removed := s1.total_bytes_removed + bytes_would_remove }
          else s1
        else s1
    else
      let r := remove_trailing_newlines f.content
      let s2 := if r.io_error then { s1 with errors := s1.errors ++ [file_path] } else s1
      if r.was_modified then
        { s2 with modified_files := s2.modified_files + 1,
                  total_bytes_removed := s2.total_bytes_removed + r.bytes_removed }
      else s2

/-- The walker `process_directory` (lines 95-168 of `strip.py`): fold the per-file loop
over the pruned `os.walk` traversal, starting from zeroed counters. -/
def process_directory (directory : String) (t : FSTree)
    (extensions exclude_patterns : Option (List String)) (dry_run : Bool) : RunState :=
  (walkFS [directory] t).foldl
    (fun s entry => entry.2.foldl (processFile extensions exclude_patterns dry_run entry.1) s)
    ⟨0, 0, 0, []⟩

/-- C5: a path whose extension (case-insensitively) lies in the fixed binary
deny-list is never processed, regardless of the user-supplied extension allow-list
and of the exclude patterns. -/
theorem binary_extension_never_processed (file_str path_suffix : String)
    (extensions exclude_patterns : Option (List String))
    (h : binary_extensions.contains (py_lower path_suffix) = true) :
    should_process_file file_str path_suffix extensions exclude_patterns = false := by
  unfold should_process_file
  split
  · rfl
  · split
    · rfl
    · simp [h]

/-- C5 witness: `.PNG` is skipped even when `.png` is in the allow-list and
no exclude pattern matches. -/
theorem binary_extension_never_processed_witness :
    binary_extensions.contains (py_lower ".PNG") = true ∧
    should_process_file "photo.PNG" ".PNG" (some [".png"]) (some [".git"]) = false :=
  ⟨by decide,
    binary_extension_never_processed "photo.PNG" ".PNG" (some [".png"]) (some [".git"])
      (by decide)⟩

/-- C7: a per-file I/O error (modelled by `content = none`) on a qualifying
file leaves `modified_files` and `total_bytes_removed` unchanged,
`remove_trailing_newlines` returns `(False, 0)` with the error reported, the
path is appended to the diagnostic stream, and the fold continues with the
remaining files. -/
theorem per_file_io_error_recovery (extensions exclude_patterns : Option (List String))
    (dry_run : Bool) (root : List String) (s : RunState) (f : PyFile)
    (rest : List PyFile) (herr : f.content = none)
    (hvis : py_startswith f.name "." = false)
    (hq : should_process_file (joinComponents (root ++ [f.name])) f.suffix
      extensions exclude_patterns = true) :
    (remove_trailing_newlines f.content).was_modified = false ∧
    (remove_trailing_newlines f.content).bytes_removed = 0 ∧
    (remove_trailing_newlines f.content).io_error = true ∧
    processFile extensions exclude_patterns dry_run root s f =
      { s with total_files := s.total_files + 1,
               errors := s.errors ++ [joinComponents (root ++ [f.name])] } ∧
    (f :: rest).foldl (processFile extensions exclude_patterns dry_run root) s =
      rest.foldl (processFile extensions exclude_patterns dry_run root)
        (processFile extensions exclude_patterns dry_run root s f) := by
  rw [herr]
  refine ⟨rfl, rfl, rfl, ?_, List.foldl_cons ..⟩
  cases dry_run <;> simp [processFile, hvis, hq, herr, remove_trailing_newlines]

/-- C7 witness: a qualifying file whose read fails is reported and leaves the
modification counters untouched. -/
theorem per_file_io_error_recovery_witness :
    (⟨"a.txt", ".txt", none⟩ : PyFile).content = none ∧
    py_startswith "a.txt" "." = false ∧
    should_process_file (joinComponents (["r"] ++ ["a.txt"])) ".txt" none none = true ∧
    processFile none none false ["r"] ⟨0, 0, 0, []⟩ ⟨"a.txt", ".txt", none⟩ =
      { total_files := 1, modified_files := 0, total_bytes_removed := 0,
        errors := [] ++ [joinComponents (["r"] ++ ["a.txt"])] } := by
  have h := per_file_io_error_recovery none none false ["r"] ⟨0, 0, 0, []⟩
    ⟨"a.txt", ".txt", none⟩ [] rfl (by decide) (by decide)
  exact ⟨rfl, by decide, by decide, h.2.2.2.1⟩

theorem processFile_dry_eq_apply (extensions exclude_patterns : Option (List String))
    (root : List String) (s : RunState) (f : PyFile) :
    processFile extensions exclude_patterns true root s f =
      processFile extensions exclude_patterns false root s f := by
  by_cases hh : py_startswith f.name "." = true
  · simp [processFile, hh]
  · by_cases hsp : should_process_file (joinComponents (root ++ [f.name])) f.suffix
      extensions exclude_patterns = true
    · cases hc : f.content with
      | none => simp [processFile, hh, hsp, hc, remove_trailing_newlines]
      | some content =>
        by_cases he : content.isEmpty = true
        · have hce : content = [] := by simpa [List.isEmpty_iff] using he
          subst hce
          simp [processFile, hh, hsp, hc, remove_trailing_newlines]
        · rcases Nat.eq_zero_or_pos (content.length - (trimLoop content).length) with hbr | hbr
          · simp [processFile, hh, hsp, hc, remove_trailing_newlines, he,
              dryRunLoop_eq_trimLoop, hbr]
          · simp [processFile, hh, hsp, hc, remove_trailing_newlines, he,
              dryRunLoop_eq_trimLoop, hbr]
    · simp [processFile, hh, hsp]

/-- C3: the inlined dry-run trim computation of `process_directory` is
extensionally equal to the trim computation of `remove_trailing_newlines`:
the duplicated loops agree on every byte sequence, the reported byte counts
agree, and a whole dry run produces the same counters as an apply run. -/
theorem dry_run_matches_apply (c : List Nat) :
    dryRunLoop c = trimLoop c ∧
    c.length - (dryRunLoop c).length = (remove_trailing_newlines (some c)).bytes_removed ∧
    ∀ (directory : String) (t : FSTree) (extensions exclude_patterns : Option (List String)),
      process_directory directory t extensions exclude_patterns true =
        process_directory directory t extensions exclude_patterns false := by
  refine ⟨dryRunLoop_eq_trimLoop c, ?_, ?_⟩
  · rw [dryRunLoop_eq_trimLoop]
    by_cases he : c.isEmpty
    · have hce : c = [] := by simpa [List.isEmpty_iff] using he
      subst hce
      have h0 : trimGuard ([] : List Nat) = false := by decide
      simp [remove_trailing_newlines, trimLoop_eq_self h0]
    · by_cases hbr : c.length - (trimLoop c).length > 0
      · simp [remove_trailing_newlines, he, hbr]
      · simp only [Nat.not_lt, Nat.le_zero] at hbr
        simp [remove_trailing_newlines, he, hbr]
  · intro directory t extensions exclude_patterns
    unfold process_directory
    congr 1
    funext s entry
    congr 1
    funext s' f
    exact processFile_dry_eq_apply extensions exclude_patterns entry.1 s' f

theorem walkFS_paths (t : FSTree) :
    ∀ root p fs, (p, fs) ∈ walkFS root t →
      root <+: p ∧ ∀ c ∈ p.drop root.length, py_startswith c "." = false := by
  induction t using FSTree.strongInduction with
  | h n subdirs files ih =>
    intro root p fs hmem
    rw [walkFS] at hmem
    rcases List.mem_cons.mp hmem with he | he
    · obtain ⟨rfl, rfl⟩ : p = root ∧ fs = files := by
        simpa [Prod.ext_iff] using he
      exact ⟨List.prefix_refl _, by simp⟩
    · rw [List.mem_flatMap] at he
      obtain ⟨d, hd, hmem2⟩ := he
      have hdsub : d.1 ∈ subdirs := List.mem_of_mem_filter d.2
      have hdnh : py_startswith (FSTree.dirName d.1) "." = false := by
        have hf := List.of_mem_filter d.2
        simpa using hf
      obtain ⟨hpre, hcomp⟩ := ih d.1 hdsub (root ++ [FSTree.dirName d.1]) p fs hmem2
      obtain ⟨rest, rfl⟩ := hpre
      constructor
      · exact ⟨[FSTree.dirName d.1] ++ rest, by simp⟩
      · intro c hc
        rw [List.append_assoc, List.drop_left] at hc
        rcases List.mem_cons.mp (by simpa using hc) with hceq | hcr
        · rw [hceq]; exact hdnh
        · apply hcomp
          rw [List.drop_left]
          exact hcr

/-- C6: hidden directories are pruned before descent: every location yielded
by the traversal has, below the user-supplied root, only path components that
do not start with `.`, so no file or directory under a hidden directory is
ever visited.  The traversal (and hence this property) does not depend on the
extension, exclude-pattern, or dry-run configuration. -/
theorem hidden_directories_pruned (directory : String) (t : FSTree)
    (p : List String) (fs : List PyFile)
    (h : (p, fs) ∈ walkFS [directory] t) :
    ∀ c ∈ p.drop 1, py_startswith c "." = false := by
  have hp := (walkFS_paths t [directory] p fs h).2
  simpa using hp

/-- C6 witness: in a tree with subdirectories `.git` and `sub`, the location
`base/sub` is visited and its components below the root are not hidden. -/
theorem hidden_directories_pruned_witness :
    ((["base", "sub"], ([] : List PyFile)) ∈
      walkFS ["base"] (FSTree.dir "r" [FSTree.dir ".git" [] [], FSTree.dir "sub" [] []] [])) ∧
    (∀ c ∈ (["base", "sub"] : List String).drop 1, py_startswith c "." = false) := by
  have h1 : (!py_startswith ".git" ".") = false := by decide
  have h2 : (!py_startswith "sub" ".") = true := by decide
  have hmem : (["base", "sub"], ([] : List PyFile)) ∈
      walkFS ["base"] (FSTree.dir "r" [FSTree.dir ".git" [] [], FSTree.dir "sub" [] []] []) := by
    rw [walkFS]
    have hfilter : ([FSTree.dir ".git" [] [], FSTree.dir "sub" [] []].filter
        (fun d => !py_startswith (FSTree.dirName d) ".")) = [FSTree.dir "sub" [] []] := by
      simp [List.filter_cons, FSTree.dirName, h1, h2]
    rw [hfilter]
    refine List.mem_cons_of_mem _ ?_
    rw [List.mem_flatMap]
    refine ⟨⟨FSTree.dir "sub" [] [], by simp⟩, List.mem_attach _ _, ?_⟩
    rw [walkFS]
    exact List.mem_cons_self _ _
  exact ⟨hmem, hidden_directories_pruned "base" _ _ _ hmem⟩

theorem strContains_mono {a b pat : String} (h : strContains a pat = true)
    (hp : a.data <+: b.data) : strContains b pat = true := by
  unfold strContains at h ⊢
  rw [decide_eq_true_iff] at h ⊢
  exact h.trans hp.isInfix

theorem joinComponents_cons (a : String) {l : List String} (hl : l ≠ []) :
    joinComponents (a :: l) = a ++ "/" ++ joinComponents l := by
  cases l with
  | nil => exact absurd rfl hl
  | cons b bs => rfl

theorem directory_prefix_path (directory : String) (rest : List String) (fname : String) :
    directory.data <+: (joinComponents ((directory :: rest) ++ [fname])).data := by
  have hs : (directory :: rest) ++ [fname] = directory :: (rest ++ [fname]) := by simp
  rw [hs, joinComponents_cons directory (by simp)]
  rw [String.data_append, String.data_append, List.append_assoc]
  exact List.prefix_append ..

theorem should_process_file_excluded {file_str : String} (path_suffix : String)
    (extensions : Option (List String)) {pats : List String} {pat : String}
    (hmem : pat ∈ pats) (hc : strContains file_str pat = true) :
    should_process_file file_str path_suffix extensions (some pats) = false := by
  unfold should_process_file
  split
  · rfl
  · split
    · rfl
    · rename_i hcond2
      exfalso
      apply hcond2
      have hne : pats ≠ [] := List.ne_nil_of_mem hmem
      simp only [Option.getD_some, Bool.and_eq_true, List.any_eq_true]
      exact ⟨by simp [truthy, List.isEmpty_iff, hne], ⟨pat, hmem, hc⟩⟩

theorem foldl_congr_id {β : Type} (l : List β) (g : RunState → β → RunState) (s : RunState)
    (h : ∀ s' b, b ∈ l → g s' b = s') : l.foldl g s = s := by
  induction l generalizing s with
  | nil => rfl
  | cons b bs ih =>
    rw [List.foldl_cons, h s b (List.mem_cons_self b bs)]
    exact ih s (fun s' x hx => h s' x (List.mem_cons_of_mem b hx))

theorem processFile_skip {extensions exclude_patterns : Option (List String)}
    {root : List String} {s : RunState} {f : PyFile} (dry_run : Bool)
    (h : should_process_file (joinComponents (root ++ [f.name])) f.suffix
      extensions exclude_patterns = false) :
    processFile extensions exclude_patterns dry_run root s f = s := by
  by_cases hh : py_startswith f.name "." = true
  · simp [processFile, hh]
  · simp [processFile, hh, h]

/-- C10: exclude patterns are matched against the full path string including
the root-directory prefix: if some exclude pattern is a substring of the
string form of the root directory itself, every file in the tree is rejected
by the filter and the run processes nothing. -/
theorem exclude_pattern_in_root_blocks_all (directory : String) (t : FSTree)
    (extensions : Option (List String)) (dry_run : Bool)
    (pats : List String) (pat : String)
    (hmem : pat ∈ pats) (hsub : strContains directory pat = true) :
    process_directory directory t extensions (some pats) dry_run = ⟨0, 0, 0, []⟩ := by
  unfold process_directory
  apply foldl_congr_id
  intro s entry hentry
  obtain ⟨p, fs⟩ := entry
  apply foldl_congr_id
  intro s' f hf
  obtain ⟨hpre, -⟩ := walkFS_paths t [directory] p fs hentry
  obtain ⟨rest, rfl⟩ := hpre
  apply processFile_skip
  apply should_process_file_excluded f.suffix extensions hmem
  exact strContains_mono hsub (directory_prefix_path directory rest f.name)

/-- C10 witness: with default-style excludes containing `venv` and a root
directory whose string form contains `venv`, a run over a tree with one
processable file counts and modifies nothing. -/
theorem exclude_pattern_in_root_blocks_all_witness :
    ("venv" ∈ ["venv"]) ∧ strContains "home/user/myvenv" "venv" = true ∧
    process_directory "home/user/myvenv"
      (FSTree.dir "myvenv" [] [⟨"a.txt", ".txt", some [104, 10]⟩])
      none (some ["venv"]) false = ⟨0, 0, 0, []⟩ :=
  ⟨by decide, by decide,
    exclude_pattern_in_root_blocks_all "home/user/myvenv"
      (FSTree.dir "myvenv" [] [⟨"a.txt", ".txt", some [104, 10]⟩])
      none false ["venv"] "venv" (by decide) (by decide)⟩

end Strip
